import Mathlib

/-!
Verification development for the gmc_scrapping repository.

The repository harvests professional-registration records from profile
pages (src/profile_scraper.py, src/fixed_parsing_logic.py, src/test.py)
and reconciles several harvest stores into one canonical table
(src/final_fixed.py).  This file shallowly embeds the functions those
files define — the text helpers, the regex-based field extractor
parse_gp_profile, the retrying fetch loop scrape_profile_page, the
write_csv / write_sqlite persistence, and the union_columns /
build_insert_sql merge of final_fixed.py — and proves properties of the
embedding.

Modelling conventions:
  * Python strings are Lean String values; all character work is done on
    the underlying character list so that every definition evaluates by
    kernel reduction.
  * Each Python regular expression used by the source is embedded as an
    RPattern value for a small backtracking matcher (reSearch below) that
    mirrors Python re.search semantics for the constructs those patterns
    use: leftmost match, greedy / non-greedy bounded repetition of a
    character class, case-insensitive literals, an optional group, and a
    trailing newline-or-end group.  Character classes are the ASCII
    readings of their Python counterparts.
  * A fetched page is modelled as its raw markup string together with its
    parsed document (the two views BeautifulSoup gives the Python code).
  * SQLite tables are lists of rows; the PRIMARY KEY constraint and the
    semantics of INSERT ... SELECT ... NOT IN (the subquery sees only the
    rows present before the statement) are modelled explicitly.
-/

namespace Gmc

/-! ## Character-list text helpers -/

/-- ASCII whitespace, as matched by the Python str.strip method and the regex
class backslash-s. -/
def isWsC (c : Char) : Bool :=
  c == ' ' || c == '\t' || c == '\n' || c == '\r' || c == '\x0b' || c == '\x0c'

/-- ASCII digit, the regex class backslash-d. -/
def isDigitC (c : Char) : Bool := '0' ≤ c && c ≤ '9'

/-- ASCII word character, the regex class backslash-w. -/
def isWordC (c : Char) : Bool :=
  ('a' ≤ c && c ≤ 'z') || ('A' ≤ c && c ≤ 'Z') || isDigitC c || c == '_'

/-- ASCII letter or space, the class [A-Za-z ] of the Profession
fallback pattern. -/
def isAlphaSpC (c : Char) : Bool :=
  ('a' ≤ c && c ≤ 'z') || ('A' ≤ c && c ≤ 'Z') || c == ' '

def lowerL (l : List Char) : List Char := l.map Char.toLower

def upperL (l : List Char) : List Char := l.map Char.toUpper

/-- Case-sensitive prefix test on character lists. -/
def isPrefixL : List Char → List Char → Bool
  | [], _ => true
  | _ :: _, [] => false
  | a :: as, b :: bs => a == b && isPrefixL as bs

/-- Case-sensitive substring test, the Python containment test `pat in s`. -/
def isInfixL (pat : List Char) : List Char → Bool
  | [] => isPrefixL pat []
  | c :: cs => isPrefixL pat (c :: cs) || isInfixL pat cs

/-- Case-insensitive prefix test (both sides lowered). -/
def isPrefixCI : List Char → List Char → Bool
  | [], _ => true
  | _ :: _, [] => false
  | a :: as, b :: bs => a.toLower == b.toLower && isPrefixCI as bs

/-- Case-insensitive substring test. -/
def isInfixCI (pat : List Char) : List Char → Bool
  | [] => isPrefixCI pat []
  | c :: cs => isPrefixCI pat (c :: cs) || isInfixCI pat cs

/-- Python str.strip(): drop ASCII whitespace from both ends. -/
def trimL (l : List Char) : List Char :=
  ((l.dropWhile isWsC).reverse.dropWhile isWsC).reverse

/-- String wrappers over the list helpers. -/
def strTrim (s : String) : String := String.mk (trimL s.data)

def strLower (s : String) : String := String.mk (lowerL s.data)

def strUpper (s : String) : String := String.mk (upperL s.data)

/-- Python `pat in s` (case-sensitive containment). -/
def strContains (s pat : String) : Bool := isInfixL pat.data s.data

/-- Python str.startswith. -/
def strStartsWith (s pat : String) : Bool := isPrefixL pat.data s.data

/-- Python s.split(chr(10)) on the character list, keeping empty pieces. -/
def splitNlL : List Char → List (List Char)
  | [] => [[]]
  | c :: cs =>
    let r := splitNlL cs
    if c == '\n' then [] :: r
    else
      match r with
      | [] => [[c]]
      | h :: t => (c :: h) :: t

def splitNl (s : String) : List String := (splitNlL s.data).map String.mk

/-- One step of collapsing runs of spaces and tabs; the flag records
whether the previous character belonged to such a run. -/
def collapseGo : Bool → List Char → List Char
  | _, [] => []
  | inRun, c :: cs =>
    if c == ' ' || c == '\t' then
      (if inRun then [] else [' ']) ++ collapseGo true cs
    else
      c :: collapseGo false cs

/-- normalize_text of profile_scraper.py: re.sub of one-or-more spaces
and tabs by a single space, newlines kept. -/
def normalize_text (s : String) : String := String.mk (collapseGo false s.data)

/-! ## Embedded regular-expression matcher

A pattern is a sequence of items; reSearch mirrors Python re.search with
flags re.S and re.I for the pattern shapes the source uses. -/

inductive RItem where
  /-- Case-insensitive literal text (re.I applies to every pattern in
  the source). -/
  | lit (s : List Char)
  /-- Bounded repetition of a character class: lo to hi occurrences
  (hi none meaning unbounded), greedy or non-greedy. -/
  | cls (p : Char → Bool) (lo : Nat) (hi : Option Nat) (greedy : Bool)
  /-- Greedy optional non-capturing group over a sequence. -/
  | opt (rs : List RItem)
  /-- The non-capturing group newline-or-end-of-input. -/
  | nlOrEnd

mutual

/-- Match one item at the front of the input and continue with k; the
backtracking order follows the Python preference order. -/
def matchItem (it : RItem) (cs : List Char) (k : List Char → Option (List Char)) :
    Option (List Char) :=
  match it with
  | .lit s => if isPrefixCI s cs then k (cs.drop s.length) else none
  | .cls p lo hi greedy =>
    let maxrun := (cs.takeWhile p).length
    let m := match hi with
      | none => maxrun
      | some h => min maxrun h
    if lo > m then none
    else
      let lens := List.range' lo (m - lo + 1)
      let lens := if greedy then lens.reverse else lens
      lens.findSome? (fun n => k (cs.drop n))
  | .opt rs =>
    match matchSeq rs cs k with
    | some r => some r
    | none => k cs
  | .nlOrEnd =>
    match cs with
    | [] => k []
    | c :: rest => if c == '\n' then k rest else none

/-- Match a sequence of items, threading the continuation. -/
def matchSeq (rs : List RItem) (cs : List Char) (k : List Char → Option (List Char)) :
    Option (List Char) :=
  match rs with
  | [] => k cs
  | r :: rest => matchItem r cs (fun rem => matchSeq rest rem k)

end

/-- A pattern with exactly one capture group: the items before it, the
items inside it, and the items after it. -/
structure RPattern where
  pre : List RItem
  cap : List RItem
  post : List RItem

/-- Try to match the whole pattern with the match starting exactly at
the front of cs; on success return the text the capture group matched. -/
def searchAt (p : RPattern) (cs : List Char) : Option (List Char) :=
  matchSeq p.pre cs (fun r1 =>
    matchSeq p.cap r1 (fun r2 =>
      matchSeq p.post r2 (fun _ => some (r1.take (r1.length - r2.length)))))

/-- Leftmost search: try every start position left to right, as
re.search does. -/
def searchFrom (p : RPattern) : List Char → Option (List Char)
  | [] => searchAt p []
  | c :: rest =>
    match searchAt p (c :: rest) with
    | some r => some r
    | none => searchFrom p rest

/-- re.search returning group(1). -/
def reSearch (p : RPattern) (s : String) : Option String :=
  (searchFrom p s.data).map String.mk

/-- extract_with_regex of profile_scraper.py: re.search with re.S, re.I
and group(1).strip(). -/
def extract_with_regex (s : String) (p : RPattern) : Option String :=
  (reSearch p s).map strTrim

/-! ## Document model

BeautifulSoup gives the parser two views of a page: the node structure
(headings, tables, the speciality list) and the flattened text
get_text(newline, strip=True).  A document is the ordered list of the
nodes the parser consumes; every other markup is irrelevant to it. -/

inductive Node where
  /-- An h1 or h2 element with its text. -/
  | heading (txt : String)
  /-- Any other text-bearing element. -/
  | para (txt : String)
  /-- A table: rows of td cell texts. -/
  | table (rows : List (List String))
  /-- The ul element of class speciality-list: its li span texts. -/
  | specList (items : List String)
deriving DecidableEq, Repr

abbrev Doc := List Node

/-- The text fragments a node contributes, in document order. -/
def nodeTexts : Node → List String
  | .heading t => [t]
  | .para t => [t]
  | .table rows => rows.flatten
  | .specList items => items

def joinNlL : List (List Char) → List Char
  | [] => []
  | [x] => x
  | x :: xs => x ++ '\n' :: joinNlL xs

def joinNl (ss : List String) : String := String.mk (joinNlL (ss.map String.data))

/-- soup.get_text(newline, strip=True): every text fragment stripped,
empty fragments dropped, the rest joined with newlines. -/
def full_text (d : Doc) : String :=
  joinNl (((d.flatMap nodeTexts).map strTrim).filter (fun s => s != ""))

/-! ## Parser constants and patterns (profile_scraper.py lines 35-58,
113-225) -/

/-- NOISE_PREFIXES of profile_scraper.py. -/
def NOISE_PREFIXES : List String :=
  ["The registrant\x27s unique identifier",
   "The organisation responsible for a registrant\x27s revalidation",
   "The senior doctor who oversees a registrant\x27s revalidation",
   "The qualification accepted for registration",
   "The date we first granted the doctor full registration",
   "The type of profession in which the registrant works",
   "A history of the registrant\x27s registration",
   "Registration and licensing history",
   "The date their registration started",
   "The date their registration ended",
   "The registrant\x27s registration status in this period"]

/-- LABELS of profile_scraper.py. -/
def LABELS : List String :=
  ["Profession", "Registered qualification", "Full registration date",
   "Designated body", "Responsible officer", "Gender",
   "GP Register", "Specialist Register"]

/-- The dot of the patterns: with re.S it matches every character. -/
def anyC (_ : Char) : Bool := true

/-- The date shape dd www dddd used by several patterns. -/
def dateItems : List RItem :=
  [.cls isDigitC 2 (some 2) true, .cls isWsC 1 (some 1) true,
   .cls isWordC 3 (some 3) true, .cls isWsC 1 (some 1) true,
   .cls isDigitC 4 (some 4) true]

/-- Pattern: GMC reference number, optional helper sentence, then a
6-to-8 digit capture. -/
def patGMC : RPattern :=
  { pre := [.lit "GMC reference number:".data, .cls isWsC 0 none true,
            .opt [.lit "The registrant\x27s unique identifier.".data,
                  .cls isWsC 0 none true]],
    cap := [.cls isDigitC 6 (some 8) true],
    post := [] }

/-- Name fallback pattern: newline, two number signs, spaces, a line
capture, then a line starting with Doctor. -/
def patNameFb : RPattern :=
  { pre := [.lit "\n##".data, .cls isWsC 1 none true],
    cap := [.cls (fun c => !(c == '\n')) 1 none true],
    post := [.lit "\n".data, .cls isWsC 0 none true, .lit "Doctor".data] }

/-- GP Register, lazily anything, From, then a date capture. -/
def patGpSince : RPattern :=
  { pre := [.lit "GP Register".data, .cls anyC 0 none false,
            .lit "From".data, .cls isWsC 1 none true],
    cap := dateItems,
    post := [] }

/-- Profession fallback: letters and spaces after the label. -/
def patProfession : RPattern :=
  { pre := [.lit "Profession".data, .cls isWsC 1 none true],
    cap := [.cls isAlphaSpC 1 none true],
    post := [] }

/-- Registered qualification fallback: lazy capture up to newline or
end. -/
def patRegQual : RPattern :=
  { pre := [.lit "Registered qualification".data, .cls isWsC 1 none true],
    cap := [.cls anyC 1 none false],
    post := [.nlOrEnd] }

/-- Full registration date fallback. -/
def patFullReg : RPattern :=
  { pre := [.lit "Full registration date".data, .cls isWsC 1 none true],
    cap := dateItems,
    post := [] }

/-- Gender fallback: one word. -/
def patGender : RPattern :=
  { pre := [.lit "Gender".data, .cls isWsC 1 none true],
    cap := [.cls isWordC 1 none true],
    post := [] }

/-- Designated body fallback. -/
def patDesig : RPattern :=
  { pre := [.lit "Designated body".data, .cls isWsC 1 none true],
    cap := [.cls anyC 1 none false],
    post := [.nlOrEnd] }

/-- Responsible officer fallback. -/
def patResp : RPattern :=
  { pre := [.lit "Responsible officer".data, .cls isWsC 1 none true],
    cap := [.cls anyC 1 none false],
    post := [.nlOrEnd] }

/-- Annual retention fee due date pattern. -/
def patAnnualFee : RPattern :=
  { pre := [.lit "Annual retention fee due date:".data, .cls isWsC 0 none true],
    cap := dateItems,
    post := [] }

/-! ## Line-oriented label extraction (profile_scraper.py lines 63-87) -/

/-- next_meaningful_line: scan the lines after a label, skipping blank
lines, noise-prefixed lines, stop labels and known labels. -/
def next_meaningful_line (stop : List String) : List String → Option String
  | [] => none
  | l :: ls =>
    let line := strTrim l
    if line == "" then next_meaningful_line stop ls
    else if NOISE_PREFIXES.any (fun p => strStartsWith line p) then
      next_meaningful_line stop ls
    else if stop.contains line || LABELS.contains line then
      next_meaningful_line stop ls
    else some line

/-- Body of the loop of get_label_value over the normalized lines: at each
line equal to the label, take the next meaningful line; fall through to
later occurrences when there is none. -/
def get_label_value_go (label : String) (stop : List String) :
    List String → Option String
  | [] => none
  | l :: ls =>
    if strTrim l == label then
      match next_meaningful_line stop ls with
      | some v => some (strTrim v)
      | none => get_label_value_go label stop ls
    else get_label_value_go label stop ls

/-- get_label_value of profile_scraper.py: split the flattened text into
normalized lines and run the label scan. -/
def get_label_value (ft label : String) (stop : List String) : Option String :=
  get_label_value_go label stop ((splitNl ft).map normalize_text)

/-- The shared shape of the six labelled fields: label-anchored scan
first, field-specific regex fallback when it finds nothing (the Python test `if not x` also treats an empty value as nothing, and the scan never
returns an empty value). -/
def labelOr (ft label : String) (stop : List String) (p : RPattern) : Option String :=
  match get_label_value ft label stop with
  | some v => some v
  | none => extract_with_regex ft p

/-! ## The record type and parse_gp_profile -/

structure GPRegister where
  On_Register : Bool
  Since : Option String
deriving DecidableEq, Repr

structure SpecialistRegister where
  On_Register : Bool
  Specialties : List String
deriving DecidableEq, Repr

structure HistoryEntry where
  From : String
  To : String
  Status : String
deriving DecidableEq, Repr

structure DoctorRecord where
  Name : Option String
  GMC_Number : Option String
  Licence_Status : String
  GP_Register : GPRegister
  Specialist_Register : SpecialistRegister
  Profession : Option String
  Registered_Qualification : Option String
  Full_Registration_Date : Option String
  Gender : Option String
  Designated_Body : Option String
  Responsible_Officer : Option String
  Annual_Fee_Due : Option String
  Registration_History : List HistoryEntry
deriving DecidableEq, Repr

def headingText? : Node → Option String
  | .heading t => some t
  | _ => none

/-- Index of the first node holding a text fragment that contains the
marker GMC reference number (soup.find on strings). -/
def anchorIdx? (d : Doc) : Option Nat :=
  d.findIdx? (fun n => (nodeTexts n).any (fun f => strContains f "GMC reference number"))

/-- The nearest heading at or before node index i (find_previous on h1
and h2 from the marker string). -/
def lastHeadingUpTo (d : Doc) (i : Nat) : Option String :=
  ((d.take (i + 1)).filterMap headingText?).getLast?

/-- The structural name extraction: the heading above the GMC marker,
rejected when empty or the cookie-banner title. -/
def structuralName (d : Doc) : Option String :=
  match anchorIdx? d with
  | none => none
  | some i =>
    match lastHeadingUpTo d i with
    | none => none
    | some h =>
      let c := strTrim h
      if c != "" && !(strLower c == "cookies") then some c else none

/-- parse_specialties of profile_scraper.py: the first speciality-list
node; the stripped text of each item is kept, bracket-wrapped, when its
lowering contains the word from. -/
def parse_specialties (d : Doc) : List String :=
  match d.findSome? (fun n => match n with | .specList its => some its | _ => none) with
  | some items =>
    ((items.map strTrim).filter (fun t => strContains (strLower t) "from")).map
      (fun t => "[" ++ t ++ "]")
  | none => []

/-- The tables of a document in order, as rows of raw cell texts. -/
def tablesOf (d : Doc) : List (List (List String)) :=
  d.filterMap (fun n => match n with | .table rows => some rows | _ => none)

/-- One table row: the stripped cell texts form a history entry exactly
when there are three of them. -/
def rowTriple? (row : List String) : Option HistoryEntry :=
  match row.map strTrim with
  | [a, b, c] => some { From := a, To := b, Status := c }
  | _ => none

def rowTriples (t : List (List String)) : List HistoryEntry :=
  t.filterMap rowTriple?

/-- The history loop of parse_gp_profile: accumulate the three-cell
rows of each table and stop after the first table that leaves the
accumulator non-empty. -/
def historyLoop : List HistoryEntry → List (List (List String)) → List HistoryEntry
  | acc, [] => acc
  | acc, t :: ts =>
    let acc2 := acc ++ rowTriples t
    if acc2.isEmpty then historyLoop acc2 ts else acc2

/-- parse_gp_profile of profile_scraper.py (lines 113-225), field by
field in source order. -/
def parse_gp_profile (d : Doc) : DoctorRecord :=
  let ft := full_text d
  let name :=
    match structuralName d with
    | some n => some n
    | none => extract_with_regex ft patNameFb
  let gmc := extract_with_regex ft patGMC
  let on_gp := strContains ft "This doctor is on the GP Register"
  let since := extract_with_regex ft patGpSince
  let specialties := parse_specialties d
  let on_spec :=
    strContains ft "This doctor is on the Specialist Register" || !specialties.isEmpty
  { Name := name
    GMC_Number := gmc
    Licence_Status := "Registered with a licence to practise"
    GP_Register := { On_Register := on_gp, Since := if on_gp then since else none }
    Specialist_Register := { On_Register := on_spec, Specialties := specialties }
    Profession := labelOr ft "Profession" [] patProfession
    Registered_Qualification :=
      labelOr ft "Registered qualification"
        ["The qualification accepted for registration"] patRegQual
    Full_Registration_Date := labelOr ft "Full registration date" [] patFullReg
    Gender := labelOr ft "Gender" [] patGender
    Designated_Body := labelOr ft "Designated body" [] patDesig
    Responsible_Officer := labelOr ft "Responsible officer" [] patResp
    Annual_Fee_Due := extract_with_regex ft patAnnualFee
    Registration_History := historyLoop [] (tablesOf d) }

/-! ## Fetch resilience layer (profile_scraper.py lines 358-393)

A fetched page carries the raw markup string, which the blocking check
scans, and the parsed document, which the validity probe scans; the two
are the views page.content() and BeautifulSoup(html) give the Python
code.  A transport error raised by the page machinery is the exn case;
the loop body catches it and retries. -/

structure Page where
  raw : String
  dom : Doc

inductive FetchRes where
  | page (p : Page)
  | exn (msg : String)

def RETRY_LIMIT : Nat := 5

/-- Keyword list of the blocking check, in source order. -/
def blockKeywords : List String := ["verify", "captcha", "blocked", "unusual activity"]

/-- The check `any(keyword in html.lower() for keyword in ...)`. -/
def isBlockedHtml (raw : String) : Bool :=
  blockKeywords.any (fun k => strContains (strLower raw) k)

/-- The retry loop of scrape_profile_page: attempt is the loop index,
the second argument the remaining iterations.  Returns the outcome (none
is exhaustion) and the number of attempts performed.  A blocked page, a
page without an extracted GMC number, and a transport error all consume
the attempt and continue. -/
def scrapeGo (fetch : Nat → FetchRes) (attempt : Nat) : Nat → Option Page × Nat
  | 0 => (none, attempt)
  | fuel + 1 =>
    match fetch attempt with
    | .exn _ => scrapeGo fetch (attempt + 1) fuel
    | .page p =>
      if isBlockedHtml p.raw then scrapeGo fetch (attempt + 1) fuel
      else if ((parse_gp_profile p.dom).GMC_Number).isSome then (some p, attempt + 1)
      else scrapeGo fetch (attempt + 1) fuel

/-- scrape_profile_page: run the loop for RETRY_LIMIT attempts starting
at attempt 0. -/
def scrape_profile_page (fetch : Nat → FetchRes) : Option Page × Nat :=
  scrapeGo fetch 0 RETRY_LIMIT

/-! ## Incremental store (profile_scraper.py lines 453-499)

A row of the doctors_single table, column for column; GMC_Number is the
primary key (the harvest loop persists only records whose GMC number was
extracted, so the key is modelled as present). -/

structure SRow where
  GMC_Number : String
  Name : Option String
  Licence_Status : Option String
  Profession : Option String
  Gender : Option String
  Registered_Qualification : Option String
  Full_Registration_Date : Option String
  Annual_Fee_Due : Option String
  Designated_Body : Option String
  Responsible_Officer : Option String
  On_GP_Register : Nat
  GP_Since : String
  On_Specialist_Register : Nat
  Specialties_Flat : String
  Registration_History_Flat : String
  Profile_URL : Option String
deriving DecidableEq, Repr

/-- The DO UPDATE SET arm of the upsert: every non-key column is taken
from the excluded (incoming) row, the key stays. -/
def upsertRow (old new : SRow) : SRow :=
  { GMC_Number := old.GMC_Number
    Name := new.Name
    Licence_Status := new.Licence_Status
    Profession := new.Profession
    Gender := new.Gender
    Registered_Qualification := new.Registered_Qualification
    Full_Registration_Date := new.Full_Registration_Date
    Annual_Fee_Due := new.Annual_Fee_Due
    Designated_Body := new.Designated_Body
    Responsible_Officer := new.Responsible_Officer
    On_GP_Register := new.On_GP_Register
    GP_Since := new.GP_Since
    On_Specialist_Register := new.On_Specialist_Register
    Specialties_Flat := new.Specialties_Flat
    Registration_History_Flat := new.Registration_History_Flat
    Profile_URL := new.Profile_URL }

def upsertF (r x : SRow) : SRow :=
  if x.GMC_Number == r.GMC_Number then upsertRow x r else x

/-- INSERT ... ON CONFLICT(GMC_Number) DO UPDATE: replace the row with
the conflicting key when there is one, append otherwise. -/
def upsert (store : List SRow) (r : SRow) : List SRow :=
  if store.any (fun x => x.GMC_Number == r.GMC_Number) then store.map (upsertF r)
  else store ++ [r]

/-- write_sqlite of profile_scraper.py: upsert the rows in order into
the store. -/
def write_sqlite (store : List SRow) (rows : List SRow) : List SRow :=
  rows.foldl upsert store

/-- Column order of to_single_row, which write_csv uses as fieldnames. -/
def csvFieldnames : List String :=
  ["GMC_Number", "Name", "Licence_Status", "Profession", "Gender",
   "Registered_Qualification", "Full_Registration_Date", "Annual_Fee_Due",
   "Designated_Body", "Responsible_Officer", "On_GP_Register", "GP_Since",
   "On_Specialist_Register", "Specialties_Flat", "Registration_History_Flat",
   "Profile_URL"]

/-- write_csv of profile_scraper.py: nothing is written for an empty row
list; otherwise the header line then every row in the order given. -/
def write_csv (rows : List SRow) : Option (List String × List SRow) :=
  if rows.isEmpty then none else some (csvFieldnames, rows)

/-! ## Reconciliation engine (final_fixed.py) -/

/-- SQLite TRIM: spaces (only) removed from both ends. -/
def sqlTrimL (l : List Char) : List Char :=
  ((l.dropWhile (· == ' ')).reverse.dropWhile (· == ' ')).reverse

/-- UPPER(TRIM(x)), the key normalization of build_insert_sql. -/
def normKey (s : String) : String := String.mk (upperL (sqlTrimL s.data))

/-- One step of union_columns: append an unseen non-key column, keeping
the seen set.  The state is (seen, ordered). -/
def unionStep (st : List String × List String) (c : String) : List String × List String :=
  if !(st.1.contains c) && !(c == "GMC_Number") then (c :: st.1, st.2 ++ [c]) else st

/-- union_columns of final_fixed.py: GMC_Number first, then every other
column in first-seen order across the sources. -/
def union_columns (column_lists : List (List String)) : List String :=
  (column_lists.foldl (fun st cols => cols.foldl unionStep st)
    (["GMC_Number"], ["GMC_Number"])).2

/-- A row of a source table: the raw GMC_Number text and the other
cells by column name. -/
structure SrcRow where
  gmc : String
  cells : List (String × String)
deriving DecidableEq, Repr

/-- A source store: provenance label, table name, column list, rows. -/
structure Source where
  source_db : String
  table : String
  cols : List String
  rows : List SrcRow
deriving DecidableEq, Repr

/-- A row of the canonical table combined_gmc_full: normalized key, the
non-key cells aligned to the target schema, and the two provenance
columns. -/
structure CanonRow where
  key : String
  cells : List (String × Option String)
  source_db : String
  source_table : String
deriving DecidableEq, Repr

def lookupCell (cells : List (String × String)) (c : String) : Option String :=
  (cells.find? (fun kv => kv.1 == c)).map (·.2)

/-- The SELECT list of build_insert_sql applied to one source row:
normalized key, source columns copied by name, missing columns NULL,
provenance attached. -/
def buildRow (target : List String) (src : Source) (r : SrcRow) : CanonRow :=
  { key := normKey r.gmc
    cells := (target.filter (fun c => !(c == "GMC_Number"))).map
      (fun c => (c, if src.cols.contains c then lookupCell r.cells c else none))
    source_db := src.source_db
    source_table := src.table }

/-- The rows one INSERT ... SELECT of build_insert_sql adds: every
source row whose normalized key is absent from the canonical table as
it stands before the statement (the NOT IN subquery sees only those
rows), aligned to the target schema with provenance attached. -/
def newRowsOf (target : List String) (tbl : List CanonRow) (src : Source) :
    List CanonRow :=
  (src.rows.filter
    (fun r => !((tbl.map (fun row => row.key)).contains (normKey r.gmc)))).map
    (buildRow target src)

/-- One INSERT ... SELECT of build_insert_sql: the filtered rows are
appended; the PRIMARY KEY on GMC_Number aborts the whole statement when
the keys of the resulting table collide (which happens exactly when two
inserted rows share a normalized key). -/
def insertSource (target : List String) (tbl : List CanonRow) (src : Source) :
    Except String (List CanonRow) :=
  if (tbl.map (fun row => row.key) ++
      (newRowsOf target tbl src).map (fun row => row.key)).Nodup then
    .ok (tbl ++ newRowsOf target tbl src)
  else .error "UNIQUE constraint failed: combined_gmc_full.GMC_Number"

/-- The per-source insert loop of main(): sources strictly in priority
order, stopping at the first constraint failure. -/
def mergeFrom (target : List String) (tbl : List CanonRow) :
    List Source → Except String (List CanonRow)
  | [] => .ok tbl
  | s :: ss =>
    match insertSource target tbl s with
    | .ok t2 => mergeFrom target t2 ss
    | .error e => .error e

def mergeAll (target : List String) (sources : List Source) :
    Except String (List CanonRow) :=
  mergeFrom target [] sources

/-- The highest-priority source containing a normalized key, together
with its row for that key. -/
def firstContaining? : List Source → String → Option (Source × SrcRow)
  | [], _ => none
  | s :: ss, k =>
    match s.rows.find? (fun r => normKey r.gmc == k) with
    | some r => some (s, r)
    | none => firstContaining? ss k

/-! ## Canonical export ordering (final_fixed.py lines 105-117)

The reconciliation export reads the canonical table ORDER BY GMC_Number;
the default SQLite BINARY collation on text is byte order, modelled as
lexicographic order on the key characters. -/

def keyLe : List Char → List Char → Bool
  | [], _ => true
  | _ :: _, [] => false
  | a :: as, b :: bs => a < b || (a == b && keyLe as bs)

def rowLe (x y : CanonRow) : Bool := keyLe x.key.data y.key.data

def insertSorted (r : CanonRow) : List CanonRow → List CanonRow
  | [] => [r]
  | x :: xs => if rowLe r x then r :: x :: xs else x :: insertSorted r xs

/-- export_csv of final_fixed.py, row order: the canonical rows sorted
by key ascending. -/
def export_csv (tbl : List CanonRow) : List CanonRow :=
  match tbl with
  | [] => []
  | x :: xs => insertSorted x (export_csv xs)

/-! ## Concrete documents used by the theorems below -/

/-- The identity scenario: a heading followed by the GMC marker line
with the interleaved helper sentence. -/
def docJaneDoe : Doc :=
  [Node.heading "Jane Doe",
   Node.para "GMC reference number: The registrant\x27s unique identifier. 1234567"]

/-- The history scenario: one qualifying three-cell row followed by a
two-cell row. -/
def docHistory : Doc := [Node.table [["01 Jan 2000", "", "Full"], ["", ""]]]

/-- A document whose Designated body label has no value and whose
Responsible officer label is entirely absent. -/
def docNoRespLabel : Doc := [Node.para "Designated body"]

/-- The same document with the bare Responsible officer label line
added after it. -/
def docWithRespLabel : Doc :=
  [Node.para "Designated body", Node.para "Responsible officer"]

/-- A document carrying the GP-register membership marker and a dated
From line after a GP Register label. -/
def docGpSince : Doc :=
  [Node.para "This doctor is on the GP Register",
   Node.para "GP Register", Node.para "From 01 Jan 2000"]

/-! ## C9: the licence status is a hard-coded constant -/

/-- C9. For every input document the extractor sets Licence_Status to
the constant string, never reading it from the document and never
leaving it null: in the embedding the field is a non-optional String
assigned unconditionally, exactly as profile_scraper.py line 139 does. -/
theorem licence_status_constant (d : Doc) :
    (parse_gp_profile d).Licence_Status = "Registered with a licence to practise" :=
  rfl

/-! ## C7: identity extraction concrete scenario -/

/-- C7. On a document whose text holds the marker phrase, the helper
sentence and the digit run 1234567 under a heading Jane Doe, the
extractor returns Name Jane Doe and GMC_Number 1234567. -/
theorem identity_extraction_scenario :
    (parse_gp_profile docJaneDoe).Name = some "Jane Doe" ∧
    (parse_gp_profile docJaneDoe).GMC_Number = some "1234567" :=
  ⟨by decide, by decide⟩

/-! ## C8: history table row filtering -/

/-- Specification-side description of the history: the first table
whose rows yield any qualifying (three-cell) entries, in document
order. -/
def historySpec (tables : List (List (List String))) : List HistoryEntry :=
  ((tables.map rowTriples).find? (fun h => !h.isEmpty)).getD []

theorem historyLoop_spec (ts : List (List (List String))) :
    historyLoop [] ts = historySpec ts := by
  induction ts with
  | nil => rfl
  | cons t ts ih =>
    by_cases h : rowTriples t = []
    · simp [historyLoop, historySpec, h, List.find?] at ih ⊢
      simpa [historySpec] using ih
    · have hne : (rowTriples t).isEmpty = false := by
        simpa [List.isEmpty_iff] using h
      simp [historyLoop, historySpec, hne, List.find?]

/-- C8. The registration history is taken from the first table whose
rows yield qualifying entries: each row with exactly three cell values
yields one triple in document order, other rows contribute nothing, and
no later table is scanned once a table has yielded entries; the rows of
the concrete scenario yield only the single qualifying triple. -/
theorem history_first_qualifying_table :
    (∀ d : Doc, (parse_gp_profile d).Registration_History = historySpec (tablesOf d)) ∧
    (parse_gp_profile docHistory).Registration_History =
      [{ From := "01 Jan 2000", To := "", Status := "Full" }] :=
  ⟨fun d => historyLoop_spec (tablesOf d), by decide⟩

/-! ## C3: retry termination on persistent blocking markers -/

theorem scrapeGo_all_blocked (fetch : Nat → FetchRes)
    (H : ∀ n, ∃ p, fetch n = .page p ∧ isBlockedHtml p.raw = true) :
    ∀ (fuel attempt : Nat), scrapeGo fetch attempt fuel = (none, attempt + fuel) := by
  intro fuel
  induction fuel with
  | zero => intro attempt; simp [scrapeGo]
  | succ f ih =>
    intro attempt
    obtain ⟨p, hf, hb⟩ := H attempt
    have harith : attempt + (f + 1) = (attempt + 1) + f := by omega
    rw [harith]
    simp only [scrapeGo, hf, hb, if_true]
    exact ih (attempt + 1)

/-- C3. When every fetch attempt returns content containing a blocking
marker, the loop performs exactly RETRY_LIMIT attempts and returns the
exhausted outcome none; the embedding is a total function returning an
Option, mirroring the source loop that catches every per-attempt
exception and falls through to return None. -/
theorem retry_exhaustion (fetch : Nat → FetchRes)
    (H : ∀ n, ∃ p, fetch n = .page p ∧ isBlockedHtml p.raw = true) :
    scrape_profile_page fetch = (none, RETRY_LIMIT) :=
  scrapeGo_all_blocked fetch H RETRY_LIMIT 0

/-- Witness for C3 at a fetch function that always returns a page whose
markup contains the marker captcha. -/
theorem retry_exhaustion_witness :
    scrape_profile_page (fun _ => FetchRes.page { raw := "captcha", dom := [] }) =
      (none, RETRY_LIMIT) :=
  retry_exhaustion _ (fun _ => ⟨{ raw := "captcha", dom := [] }, rfl, by decide⟩)

/-! ## C10: GP-register Since is gated by the membership marker -/

theorem gp_register_fields (d : Doc) :
    (parse_gp_profile d).GP_Register =
      { On_Register := strContains (full_text d) "This doctor is on the GP Register"
        Since :=
          if strContains (full_text d) "This doctor is on the GP Register" then
            extract_with_regex (full_text d) patGpSince
          else none } :=
  rfl

/-- C10. In every extracted record the GP-register Since date is
non-null only when On_Register is true, and whenever the membership
marker phrase is absent from the text, Since is none even if the dated
From pattern matched. -/
theorem gp_since_gated_by_marker (d : Doc) :
    ((parse_gp_profile d).GP_Register.Since ≠ none →
      (parse_gp_profile d).GP_Register.On_Register = true) ∧
    (strContains (full_text d) "This doctor is on the GP Register" = false →
      (parse_gp_profile d).GP_Register.Since = none) := by
  rw [gp_register_fields]
  by_cases h : strContains (full_text d) "This doctor is on the GP Register" = true
  · refine ⟨fun _ => h, fun hf => ?_⟩
    rw [h] at hf
    cases hf
  · have h' : strContains (full_text d) "This doctor is on the GP Register" = false := by
      revert h
      cases strContains (full_text d) "This doctor is on the GP Register" <;> simp
    refine ⟨fun hs => absurd ?_ hs, fun _ => by simp [h']⟩
    simp [h']

/-- Witness for C10: on the concrete GP document the Since field is
present, so the theorem yields On_Register true. -/
theorem gp_since_gated_by_marker_witness :
    (parse_gp_profile docGpSince).GP_Register.On_Register = true :=
  (gp_since_gated_by_marker docGpSince).1 (by decide)

/-! ## C4: idempotent upsert -/

/-- The PRIMARY KEY invariant of the doctors_single table: pairwise
distinct keys. -/
def keysNodup (s : List SRow) : Prop :=
  (s.map (fun x => x.GMC_Number)).Nodup

theorem upsertF_comp (r x : SRow) : upsertF r (upsertF r x) = upsertF r x := by
  by_cases h : (x.GMC_Number == r.GMC_Number) = true
  · simp [upsertF, upsertRow, h]
  · simp [upsertF, h]

theorem upsertF_self (r : SRow) : upsertF r r = r := by
  simp [upsertF, upsertRow]

theorem upsertRow_eq (x r : SRow) (h : x.GMC_Number = r.GMC_Number) :
    upsertRow x r = r := by
  cases r
  simp only [upsertRow] at *
  simp [h]

theorem map_fix_of_fixed (f : SRow → SRow) :
    ∀ (l : List SRow), (∀ x ∈ l, f x = x) → l.map f = l := by
  intro l
  induction l with
  | nil => intro _; rfl
  | cons a t ih =>
    intro h
    simp only [List.map_cons, h a (by simp)]
    rw [ih (fun x hx => h x (by simp [hx]))]

theorem upsert_map_fix (s : List SRow) (r : SRow) :
    (upsert s r).map (upsertF r) = upsert s r := by
  unfold upsert
  by_cases h : s.any (fun x => x.GMC_Number == r.GMC_Number) = true
  · simp only [h, if_true, List.map_map]
    have hff : upsertF r ∘ upsertF r = upsertF r := funext (upsertF_comp r)
    rw [hff]
  · simp only [h]
    simp only [Bool.false_eq_true, if_false, List.map_append, List.map_cons,
      List.map_nil, upsertF_self]
    rw [List.any_eq_true] at h
    push_neg at h
    have hfix : ∀ x ∈ s, upsertF r x = x := by
      intro x hx
      have hne : ¬(x.GMC_Number == r.GMC_Number) = true := h x hx
      have hb : (x.GMC_Number == r.GMC_Number) = false := by
        revert hne
        cases x.GMC_Number == r.GMC_Number <;> simp
      simp [upsertF, hb]
    rw [map_fix_of_fixed _ s hfix]

theorem upsert_any_key (s : List SRow) (r : SRow) :
    (upsert s r).any (fun x => x.GMC_Number == r.GMC_Number) = true := by
  unfold upsert
  by_cases h : s.any (fun x => x.GMC_Number == r.GMC_Number) = true
  · simp only [h, if_true]
    rw [List.any_eq_true] at h ⊢
    obtain ⟨x, hx, hkey⟩ := h
    refine ⟨upsertF r x, List.mem_map_of_mem _ hx, ?_⟩
    simp [upsertF, hkey, upsertRow]
  · simp only [h]
    simp [List.any_append]

theorem upsert_idem (s : List SRow) (r : SRow) :
    upsert (upsert s r) r = upsert s r := by
  have hany := upsert_any_key s r
  conv_lhs => rw [upsert]
  rw [if_pos hany]
  exact upsert_map_fix s r

theorem upsert_cons_ne (x : SRow) (t : List SRow) (r : SRow)
    (hk : (x.GMC_Number == r.GMC_Number) = false) :
    upsert (x :: t) r = x :: upsert t r := by
  unfold upsert
  by_cases h : t.any (fun y => y.GMC_Number == r.GMC_Number) = true
  · simp [List.any_cons, hk, h, upsertF]
  · simp [List.any_cons, hk, h]

theorem upsert_filter_key (r : SRow) :
    ∀ (s : List SRow), keysNodup s →
      (upsert s r).filter (fun x => x.GMC_Number == r.GMC_Number) = [r] := by
  intro s
  induction s with
  | nil => intro _; simp [upsert, List.filter]
  | cons x t ih =>
    intro hnd
    have hnd0 : (x.GMC_Number ∉ t.map (fun y => y.GMC_Number)) ∧ keysNodup t := by
      have := hnd
      simp only [keysNodup, List.map_cons, List.nodup_cons] at this
      exact this
    by_cases hk : (x.GMC_Number == r.GMC_Number) = true
    · have hxr : x.GMC_Number = r.GMC_Number := by simpa using hk
      have hanyc : (x :: t).any (fun y => y.GMC_Number == r.GMC_Number) = true := by
        simp [List.any_cons, hk]
      unfold upsert
      rw [if_pos hanyc]
      simp only [List.map_cons, List.filter_cons]
      have hfx : upsertF r x = r := by
        simp only [upsertF, hk, if_true]
        exact upsertRow_eq x r hxr
      rw [hfx]
      simp only [BEq.refl, if_true]
      have hrest : (t.map (upsertF r)).filter
          (fun y => y.GMC_Number == r.GMC_Number) = [] := by
        rw [List.filter_eq_nil_iff]
        intro y hy
        obtain ⟨z, hz, hzy⟩ := List.mem_map.mp hy
        have hzne : z.GMC_Number ≠ r.GMC_Number := by
          intro he
          exact hnd0.1 (by rw [hxr, ← he]; exact List.mem_map_of_mem _ hz)
        have hzb : (z.GMC_Number == r.GMC_Number) = false := by
          simpa using hzne
        have : upsertF r z = z := by simp [upsertF, hzb]
        rw [← hzy, this]
        simp [hzb]
      rw [hrest]
    · have hkf : (x.GMC_Number == r.GMC_Number) = false := by
        revert hk
        cases x.GMC_Number == r.GMC_Number <;> simp
      rw [upsert_cons_ne x t r hkf]
      simp only [List.filter_cons, hkf]
      simp only [Bool.false_eq_true, if_false]
      exact ih hnd0.2

/-- C4. Applying the upsert of a record twice leaves the store equal to
applying it once, and the store after one upsert holds exactly one row
keyed by the registration id of the record, namely the record itself (whole
row replaced). -/
theorem upsert_idempotent_once (store : List SRow) (r : SRow)
    (h : keysNodup store) :
    write_sqlite store [r, r] = write_sqlite store [r] ∧
    (write_sqlite store [r]).filter (fun x => x.GMC_Number == r.GMC_Number) = [r] := by
  constructor
  · show upsert (upsert store r) r = upsert store r
    exact upsert_idem store r
  · show (upsert store r).filter (fun x => x.GMC_Number == r.GMC_Number) = [r]
    exact upsert_filter_key r store h

/-- A concrete all-null record with key 1 for the C4 witness. -/
def sampleRow : SRow :=
  { GMC_Number := "1", Name := none, Licence_Status := none, Profession := none,
    Gender := none, Registered_Qualification := none, Full_Registration_Date := none,
    Annual_Fee_Due := none, Designated_Body := none, Responsible_Officer := none,
    On_GP_Register := 0, GP_Since := "", On_Specialist_Register := 0,
    Specialties_Flat := "", Registration_History_Flat := "", Profile_URL := none }

/-- Witness for C4 at the empty store and the sample record. -/
theorem upsert_idempotent_once_witness :
    write_sqlite [] [sampleRow, sampleRow] = write_sqlite [] [sampleRow] ∧
    (write_sqlite [] [sampleRow]).filter
      (fun x => x.GMC_Number == sampleRow.GMC_Number) = [sampleRow] :=
  upsert_idempotent_once [] sampleRow (by simp [keysNodup])

/-! ## C2: schema union completeness and order -/

/-- First-seen deduplication relative to an already-seen set; this is
the description the spec gives of the non-key part of the canonical
schema. -/
def firstSeen (seen : List String) : List String → List String
  | [] => []
  | c :: cs => if c ∈ seen then firstSeen seen cs else c :: firstSeen (c :: seen) cs

/-- Specification-side schema: GMC_Number first, then every column seen
in any source in first-seen order across the sources, duplicates
skipped. -/
def canonicalSchemaSpec (ls : List (List String)) : List String :=
  "GMC_Number" :: firstSeen ["GMC_Number"] ls.flatten

theorem contains_true (l : List String) (a : String) :
    l.contains a = true ↔ a ∈ l := by
  show l.elem a = true ↔ a ∈ l
  exact List.elem_iff

theorem foldl_union_flatten (lls : List (List String)) :
    ∀ st : List String × List String,
      lls.foldl (fun st cols => cols.foldl unionStep st) st =
        lls.flatten.foldl unionStep st := by
  induction lls with
  | nil => intro st; rfl
  | cons l ls ih =>
    intro st
    simp only [List.foldl_cons, List.flatten_cons, List.foldl_append]
    exact ih _

theorem foldl_unionStep_firstSeen (cs : List String) :
    ∀ (seen ord : List String), "GMC_Number" ∈ seen →
      cs.foldl unionStep (seen, ord) =
        ((firstSeen seen cs).reverse ++ seen, ord ++ firstSeen seen cs) := by
  induction cs with
  | nil => intro seen ord _; simp [firstSeen]
  | cons c cs ih =>
    intro seen ord hg
    by_cases hm : c ∈ seen
    · have hc : seen.contains c = true := (contains_true seen c).mpr hm
      have hstep : unionStep (seen, ord) c = (seen, ord) := by
        show (if !(seen.contains c) && !(c == "GMC_Number") then
          (c :: seen, ord ++ [c]) else (seen, ord)) = (seen, ord)
        rw [hc]
        rfl
      rw [List.foldl_cons, hstep, ih seen ord hg]
      rw [show firstSeen seen (c :: cs) = firstSeen seen cs from by
        simp [firstSeen, hm]]
    · have hc : seen.contains c = false := by
        cases h2 : seen.contains c
        · rfl
        · exact absurd ((contains_true seen c).mp h2) hm
      have hgne : c ≠ "GMC_Number" := fun he => hm (he ▸ hg)
      have hne : (c == "GMC_Number") = false := by simpa using hgne
      have hstep : unionStep (seen, ord) c = (c :: seen, ord ++ [c]) := by
        show (if !(seen.contains c) && !(c == "GMC_Number") then
          (c :: seen, ord ++ [c]) else (seen, ord)) = (c :: seen, ord ++ [c])
        rw [hc, hne]
        rfl
      rw [List.foldl_cons, hstep,
        ih (c :: seen) (ord ++ [c]) (List.mem_cons_of_mem _ hg)]
      rw [show firstSeen seen (c :: cs) = c :: firstSeen (c :: seen) cs from by
        simp [firstSeen, hm]]
      simp [List.append_assoc]

theorem firstSeen_props (cs : List String) :
    ∀ seen, (firstSeen seen cs).Nodup ∧ (∀ x ∈ firstSeen seen cs, x ∉ seen) := by
  induction cs with
  | nil => intro seen; simp [firstSeen]
  | cons c cs ih =>
    intro seen
    by_cases hm : c ∈ seen
    · simpa [firstSeen, hm] using ih seen
    · obtain ⟨ihn, ihm⟩ := ih (c :: seen)
      simp only [firstSeen]
      rw [if_neg hm]
      rw [List.nodup_cons]
      refine ⟨⟨fun hmem => ihm c hmem (by simp), ihn⟩, ?_⟩
      intro x hx
      rcases List.mem_cons.mp hx with he | ht
      · exact he ▸ hm
      · exact fun hxs => ihm x ht (List.mem_cons_of_mem _ hxs)

theorem firstSeen_complete (cs : List String) :
    ∀ seen x, x ∈ cs → x ∈ seen ∨ x ∈ firstSeen seen cs := by
  induction cs with
  | nil => intro seen x hx; cases hx
  | cons c cs ih =>
    intro seen x hx
    by_cases hm : c ∈ seen
    · rcases List.mem_cons.mp hx with he | ht
      · exact Or.inl (he ▸ hm)
      · simpa [firstSeen, hm] using ih seen x ht
    · rcases List.mem_cons.mp hx with he | ht
      · right
        simp only [firstSeen]
        rw [if_neg hm, he]
        exact List.mem_cons_self _ _
      · rcases ih (c :: seen) x ht with hs | hf
        · rcases List.mem_cons.mp hs with he2 | hs2
          · right
            simp only [firstSeen]
            rw [if_neg hm, he2]
            exact List.mem_cons_self _ _
          · exact Or.inl hs2
        · right
          simp only [firstSeen]
          rw [if_neg hm]
          exact List.mem_cons_of_mem _ hf

/-- C2. The canonical schema equals the specification-side schema
(GMC_Number first, remaining columns in first-seen order across the
sources in priority order, duplicates skipped), has no duplicates, and
contains every column that appears in any source exactly once. -/
theorem schema_union_complete (ls : List (List String)) :
    union_columns ls = canonicalSchemaSpec ls ∧
    (union_columns ls).Nodup ∧
    (∀ c, (∃ l ∈ ls, c ∈ l) → (union_columns ls).count c = 1) := by
  have heq : union_columns ls = canonicalSchemaSpec ls := by
    unfold union_columns canonicalSchemaSpec
    rw [foldl_union_flatten,
      foldl_unionStep_firstSeen ls.flatten ["GMC_Number"] ["GMC_Number"] (by simp)]
    rfl
  have hnd : (canonicalSchemaSpec ls).Nodup := by
    unfold canonicalSchemaSpec
    rw [List.nodup_cons]
    exact ⟨fun hmem => (firstSeen_props _ _).2 _ hmem (by simp),
      (firstSeen_props _ _).1⟩
  refine ⟨heq, heq ▸ hnd, ?_⟩
  rintro c ⟨l, hl, hcl⟩
  have hmem : c ∈ union_columns ls := by
    rw [heq]
    unfold canonicalSchemaSpec
    have hflat : c ∈ ls.flatten := List.mem_flatten.mpr ⟨l, hl, hcl⟩
    rcases firstSeen_complete ls.flatten ["GMC_Number"] c hflat with h | h
    · simp at h
      simp [h]
    · simp [h]
  exact List.count_eq_one_of_mem (heq ▸ hnd) hmem

/-- Witness for C2: a concrete source list whose column B occurs in two
sources yet counts once in the canonical schema. -/
theorem schema_union_complete_witness :
    (union_columns [["GMC_Number", "B"], ["B", "A"]]).count "B" = 1 :=
  (schema_union_complete [["GMC_Number", "B"], ["B", "A"]]).2.2 "B"
    ⟨["GMC_Number", "B"], by simp, by simp⟩

/-! ## C5: extractor behaviour when a label is missing -/

/-- The six optional fields extracted by the label-anchored scan with a
regex fallback. -/
inductive LabelField where
  | profField
  | regQual
  | fullReg
  | genderField
  | desigBody
  | respOfficer
deriving DecidableEq, Repr

def labelOf : LabelField → String
  | .profField => "Profession"
  | .regQual => "Registered qualification"
  | .fullReg => "Full registration date"
  | .genderField => "Gender"
  | .desigBody => "Designated body"
  | .respOfficer => "Responsible officer"

def stopsOf : LabelField → List String
  | .regQual => ["The qualification accepted for registration"]
  | _ => []

def patOf : LabelField → RPattern
  | .profField => patProfession
  | .regQual => patRegQual
  | .fullReg => patFullReg
  | .genderField => patGender
  | .desigBody => patDesig
  | .respOfficer => patResp

def fieldOf : LabelField → DoctorRecord → Option String
  | .profField => fun dr => dr.Profession
  | .regQual => fun dr => dr.Registered_Qualification
  | .fullReg => fun dr => dr.Full_Registration_Date
  | .genderField => fun dr => dr.Gender
  | .desigBody => fun dr => dr.Designated_Body
  | .respOfficer => fun dr => dr.Responsible_Officer

theorem fieldOf_parse (f : LabelField) (d : Doc) :
    fieldOf f (parse_gp_profile d) =
      labelOr (full_text d) (labelOf f) (stopsOf f) (patOf f) := by
  cases f <;> rfl

theorem patOf_pre (f : LabelField) :
    ∃ rest, (patOf f).pre = .lit (labelOf f).data :: rest := by
  cases f <;> exact ⟨_, rfl⟩

theorem glv_none (label : String) (stop : List String) :
    ∀ lines : List String, (∀ l ∈ lines, strTrim l ≠ label) →
      get_label_value_go label stop lines = none := by
  intro lines
  induction lines with
  | nil => intro _; rfl
  | cons l ls ih =>
    intro h
    have hne : strTrim l ≠ label := h l (by simp)
    have hb : (strTrim l == label) = false := by simpa using hne
    simp only [get_label_value_go, hb, Bool.false_eq_true, if_false]
    exact ih (fun x hx => h x (by simp [hx]))

theorem matchSeq_lit_requires (w : List Char) (rest : List RItem) (cs : List Char)
    (k : List Char → Option (List Char)) (r : List Char)
    (h : matchSeq (.lit w :: rest) cs k = some r) : isPrefixCI w cs = true := by
  cases hp : isPrefixCI w cs
  · exfalso
    rw [matchSeq, matchItem, hp] at h
    simp at h
  · rfl

theorem searchFrom_infixCI (p : RPattern) (w : List Char) (rest : List RItem)
    (hp : p.pre = .lit w :: rest) :
    ∀ cs r, searchFrom p cs = some r → isInfixCI w cs = true := by
  intro cs
  induction cs with
  | nil =>
    intro r h
    rw [searchFrom] at h
    unfold searchAt at h
    rw [hp] at h
    have := matchSeq_lit_requires w rest [] _ _ h
    simpa [isInfixCI] using this
  | cons c cs ih =>
    intro r h
    rw [searchFrom] at h
    cases hs : searchAt p (c :: cs) with
    | some r2 =>
      unfold searchAt at hs
      rw [hp] at hs
      have hpre := matchSeq_lit_requires w rest (c :: cs) _ _ hs
      simp [isInfixCI, hpre]
    | none =>
      rw [hs] at h
      have := ih r h
      simp [isInfixCI, this]

theorem extract_none_of_no_infix (s : String) (p : RPattern) (w : List Char)
    (rest : List RItem) (hp : p.pre = .lit w :: rest)
    (h : isInfixCI w s.data = false) :
    extract_with_regex s p = none := by
  unfold extract_with_regex reSearch
  cases hs : searchFrom p s.data with
  | none => rfl
  | some r =>
    rw [searchFrom_infixCI p w rest hp s.data r hs] at h
    cases h

/-- C5 (amended). When the label of an optional labelled field occurs
nowhere in the document text — neither as a whole line (after the
whitespace normalization the line scan applies) nor as a
case-insensitive substring — extraction still completes (the embedded
extractor is a total function) and returns none for that field: both
the label-anchored scan and the regex fallback require the label
text. -/
theorem label_absent_field_none (f : LabelField) (d : Doc)
    (hline : ∀ l ∈ (splitNl (full_text d)).map normalize_text,
      strTrim l ≠ labelOf f)
    (hinf : isInfixCI (labelOf f).data (full_text d).data = false) :
    fieldOf f (parse_gp_profile d) = none := by
  rw [fieldOf_parse]
  unfold labelOr
  have h1 : get_label_value (full_text d) (labelOf f) (stopsOf f) = none := by
    unfold get_label_value
    exact glv_none _ _ _ hline
  rw [h1]
  obtain ⟨rest, hpre⟩ := patOf_pre f
  exact extract_none_of_no_infix _ _ _ rest hpre hinf

/-- Witness for the amended C5 at the empty document and the Gender
field. -/
theorem label_absent_field_none_witness :
    fieldOf LabelField.genderField (parse_gp_profile []) = none :=
  label_absent_field_none LabelField.genderField [] (by decide) (by decide)

/-- Counterexample to C5 as stated.  In the document holding only the
line Designated body, the Responsible officer label is entirely absent
and both fields extract to none.  Adding the missing bare label line
produces a document on which the Designated body field changes to the
inserted label text (the regex fallback captures it), so the other
fields are not the same as on the document that additionally contains
the missing label. -/
theorem extractor_label_insertion_cex :
    (parse_gp_profile docNoRespLabel).Responsible_Officer = none ∧
    (parse_gp_profile docWithRespLabel).Responsible_Officer = none ∧
    (parse_gp_profile docNoRespLabel).Designated_Body = none ∧
    (parse_gp_profile docWithRespLabel).Designated_Body =
      some "Responsible officer" ∧
    docWithRespLabel = docNoRespLabel ++ [Node.para "Responsible officer"] :=
  ⟨by decide, by decide, by decide, by decide, by decide⟩

/-! ## C6: export ordering -/

theorem keyLe_refl (a : List Char) : keyLe a a = true := by
  induction a with
  | nil => rfl
  | cons x xs ih =>
    simp only [keyLe, Bool.or_eq_true, Bool.and_eq_true, decide_eq_true_eq,
      beq_iff_eq]
    simp only [lt_self_iff_false, false_or, true_and]
    exact ih

theorem keyLe_total (a : List Char) : ∀ b, keyLe a b = true ∨ keyLe b a = true := by
  induction a with
  | nil => intro b; exact Or.inl rfl
  | cons x xs ih =>
    intro b
    cases b with
    | nil => exact Or.inr rfl
    | cons y ys =>
      simp only [keyLe, Bool.or_eq_true, Bool.and_eq_true, decide_eq_true_eq,
        beq_iff_eq]
      rcases lt_trichotomy x y with h | h | h
      · exact Or.inl (Or.inl h)
      · rcases ih ys with h2 | h2
        · exact Or.inl (Or.inr ⟨h, h2⟩)
        · exact Or.inr (Or.inr ⟨h.symm, h2⟩)
      · exact Or.inr (Or.inl h)

theorem keyLe_trans (a : List Char) :
    ∀ b c, keyLe a b = true → keyLe b c = true → keyLe a c = true := by
  induction a with
  | nil => intro b c _ _; rfl
  | cons x xs ih =>
    intro b c hab hbc
    cases b with
    | nil => simp [keyLe] at hab
    | cons y ys =>
      cases c with
      | nil => simp [keyLe] at hbc
      | cons z zs =>
        simp only [keyLe, Bool.or_eq_true, Bool.and_eq_true, decide_eq_true_eq,
          beq_iff_eq] at hab hbc ⊢
        rcases hab with h1 | h1
        · rcases hbc with h2 | h2
          · exact Or.inl (lt_trans h1 h2)
          · exact Or.inl (h2.1 ▸ h1)
        · rcases hbc with h2 | h2
          · exact Or.inl (h1.1 ▸ h2)
          · exact Or.inr ⟨h1.1.trans h2.1, ih ys zs h1.2 h2.2⟩

theorem keyLe_antisymm_eq (a : List Char) :
    ∀ b, keyLe a b = true → keyLe b a = true → a = b := by
  induction a with
  | nil =>
    intro b hab hba
    cases b with
    | nil => rfl
    | cons y ys => simp [keyLe] at hba
  | cons x xs ih =>
    intro b hab hba
    cases b with
    | nil => simp [keyLe] at hab
    | cons y ys =>
      simp only [keyLe, Bool.or_eq_true, Bool.and_eq_true, decide_eq_true_eq,
        beq_iff_eq] at hab hba
      rcases hab with h1 | h1
      · rcases hba with h2 | h2
        · exact absurd h2 (lt_asymm h1)
        · exact absurd h1 (h2.1 ▸ lt_irrefl y)
      · rcases hba with h2 | h2
        · exact absurd h2 (h1.1 ▸ lt_irrefl x)
        · rw [h1.1, ih ys h1.2 h2.2]

theorem rowLe_trans {a b c : CanonRow} (h1 : rowLe a b = true)
    (h2 : rowLe b c = true) : rowLe a c = true :=
  keyLe_trans a.key.data b.key.data c.key.data h1 h2

theorem insertSorted_perm (r : CanonRow) :
    ∀ l, (insertSorted r l).Perm (r :: l) := by
  intro l
  induction l with
  | nil => exact List.Perm.refl _
  | cons x xs ih =>
    unfold insertSorted
    by_cases h : rowLe r x = true
    · rw [if_pos h]
    · rw [if_neg h]
      exact (List.Perm.cons x ih).trans (List.Perm.swap r x xs)

theorem insertSorted_sorted (r : CanonRow) :
    ∀ l, l.Pairwise (fun a b => rowLe a b = true) →
      (insertSorted r l).Pairwise (fun a b => rowLe a b = true) := by
  intro l
  induction l with
  | nil => intro _; simp [insertSorted]
  | cons x xs ih =>
    intro hs
    obtain ⟨hx, hxs⟩ := List.pairwise_cons.mp hs
    unfold insertSorted
    by_cases h : rowLe r x = true
    · rw [if_pos h]
      rw [List.pairwise_cons]
      refine ⟨?_, hs⟩
      intro b hb
      rcases List.mem_cons.mp hb with he | ht
      · exact he ▸ h
      · exact rowLe_trans h (hx b ht)
    · rw [if_neg h]
      rw [List.pairwise_cons]
      have hrx : rowLe x r = true := by
        rcases keyLe_total r.key.data x.key.data with ht | ht
        · exact absurd ht h
        · exact ht
      refine ⟨?_, ih hxs⟩
      intro b hb
      have hmem : b ∈ r :: xs := (insertSorted_perm r xs).mem_iff.mp hb
      rcases List.mem_cons.mp hmem with he | ht
      · exact he ▸ hrx
      · exact hx b ht

theorem export_csv_sorted (tbl : List CanonRow) :
    (export_csv tbl).Pairwise (fun a b => rowLe a b = true) := by
  induction tbl with
  | nil => simp [export_csv]
  | cons x xs ih => exact insertSorted_sorted x _ ih

theorem export_csv_perm (tbl : List CanonRow) : (export_csv tbl).Perm tbl := by
  induction tbl with
  | nil => exact List.Perm.refl _
  | cons x xs ih =>
    exact (insertSorted_perm x (export_csv xs)).trans (List.Perm.cons x ih)

theorem sorted_perm_eq :
    ∀ (l1 l2 : List CanonRow),
      l1.Pairwise (fun a b => rowLe a b = true) →
      l2.Pairwise (fun a b => rowLe a b = true) →
      (l1.map (fun r => r.key)).Nodup →
      l1.Perm l2 → l1 = l2 := by
  intro l1
  induction l1 with
  | nil => intro l2 _ _ _ hp; exact hp.nil_eq
  | cons x xs ih =>
    intro l2 hs1 hs2 hnd hp
    cases l2 with
    | nil =>
      have := hp.symm.nil_eq
      cases this
    | cons y ys =>
      have hx2 : x ∈ y :: ys := hp.mem_iff.mp (by simp)
      have hy1 : y ∈ x :: xs := hp.mem_iff.mpr (by simp)
      have hxy : rowLe x y = true := by
        rcases List.mem_cons.mp hy1 with he | ht
        · exact he ▸ keyLe_refl x.key.data
        · exact (List.pairwise_cons.mp hs1).1 y ht
      have hyx : rowLe y x = true := by
        rcases List.mem_cons.mp hx2 with he | ht
        · exact he ▸ keyLe_refl x.key.data
        · exact (List.pairwise_cons.mp hs2).1 x ht
      have hkey : x.key = y.key := by
        have hdd := keyLe_antisymm_eq x.key.data y.key.data hxy hyx
        cases hx' : x.key with
        | mk d1 =>
          cases hy' : y.key with
          | mk d2 =>
            rw [hx', hy'] at hdd
            simp only [] at hdd
            exact congrArg String.mk hdd
      have hxeqy : x = y := by
        rcases List.mem_cons.mp hx2 with he | ht
        · exact he
        · rcases List.mem_cons.mp hy1 with he2 | ht2
          · exact he2.symm
          · exfalso
            have hmem : x.key ∈ xs.map (fun r => r.key) := by
              rw [hkey]
              exact List.mem_map_of_mem _ ht2
            rw [List.map_cons, List.nodup_cons] at hnd
            exact hnd.1 hmem
      rw [← hxeqy] at hp ⊢
      have hp' : xs.Perm ys := hp.cons_inv
      rw [ih ys (List.pairwise_cons.mp hs1).2
        (List.pairwise_cons.mp hs2).2
        (by rw [List.map_cons, List.nodup_cons] at hnd; exact hnd.2) hp']

theorem export_csv_unique (t1 t2 : List CanonRow)
    (hnd : (t1.map (fun r => r.key)).Nodup) (hp : t2.Perm t1) :
    export_csv t2 = export_csv t1 := by
  apply sorted_perm_eq _ _ (export_csv_sorted t2) (export_csv_sorted t1)
  · have hperm : ((export_csv t2).map (fun r => r.key)).Perm
        (t1.map (fun r => r.key)) :=
      List.Perm.map _ ((export_csv_perm t2).trans hp)
    exact hperm.nodup_iff.mpr hnd
  · exact (export_csv_perm t2).trans (hp.trans (export_csv_perm t1).symm)

/-- C6 (amended). The CSV writer of the incremental store emits the rows
exactly in the order given (arrival order); the ordering by key belongs
to the reconciliation export: export_csv is sorted by key ascending, is
a permutation of the canonical table, and is determined by the set of
rows alone — independent of row order — whenever the table keys are
pairwise distinct, as the primary key of the canonical table guarantees. -/
theorem export_ordering (rows : List SRow) (tbl t2 : List CanonRow) :
    (rows ≠ [] → write_csv rows = some (csvFieldnames, rows)) ∧
    (export_csv tbl).Pairwise (fun a b => rowLe a b = true) ∧
    (export_csv tbl).Perm tbl ∧
    ((tbl.map (fun r => r.key)).Nodup → t2.Perm tbl →
      export_csv t2 = export_csv tbl) := by
  refine ⟨?_, export_csv_sorted tbl, export_csv_perm tbl,
    fun hnd hp => export_csv_unique tbl t2 hnd hp⟩
  intro hne
  have : rows.isEmpty = false := by
    cases rows
    · exact absurd rfl hne
    · rfl
  simp [write_csv, this]

/-- Two rows for the C6 counterexample, keyed 1 and 2. -/
def rowKey1 : SRow :=
  { sampleRow with GMC_Number := "1" }

def rowKey2 : SRow :=
  { sampleRow with GMC_Number := "2" }

/-- Counterexample to C6 as stated: the CSV export of the incremental store
emits the rows in arrival order, so with arrival order 2 then 1 the
emitted key sequence is not ascending, and reversing the arrival order
changes the output. -/
theorem export_ordering_cex :
    write_csv [rowKey2, rowKey1] = some (csvFieldnames, [rowKey2, rowKey1]) ∧
    keyLe rowKey2.GMC_Number.data rowKey1.GMC_Number.data = false ∧
    write_csv [rowKey2, rowKey1] ≠ write_csv [rowKey1, rowKey2] :=
  ⟨by decide, by decide, by decide⟩

/-- Witness for C6 at a one-row list and a concrete two-row canonical
table with distinct keys. -/
theorem export_ordering_witness :
    write_csv [rowKey1] = some (csvFieldnames, [rowKey1]) :=
  (export_ordering [rowKey1] [] []).1 (by decide)

/-! ## C1: reconciliation dedup with source priority -/

theorem filter_byKey_nil (tbl : List CanonRow) (k : String)
    (h : k ∉ tbl.map (fun r => r.key)) :
    tbl.filter (fun row => row.key == k) = [] := by
  rw [List.filter_eq_nil_iff]
  intro row hrow hbe
  have hre : row.key = k := by simpa using hbe
  exact h (hre ▸ List.mem_map_of_mem _ hrow)

theorem find_filter_unique (k : String) :
    ∀ rows : List SrcRow,
      (rows.map (fun r => normKey r.gmc)).Nodup →
      ∀ r0, rows.find? (fun r => normKey r.gmc == k) = some r0 →
        rows.filter (fun r => normKey r.gmc == k) = [r0] := by
  intro rows
  induction rows with
  | nil => intro _ r0 hf; cases hf
  | cons a t ih =>
    intro hnd r0 hf
    rw [List.map_cons, List.nodup_cons] at hnd
    by_cases hp : (normKey a.gmc == k) = true
    · rw [List.find?_cons_of_pos t hp] at hf
      injection hf with h0
      have hk : normKey a.gmc = k := by simpa using hp
      have htail : t.filter (fun r => normKey r.gmc == k) = [] := by
        rw [List.filter_eq_nil_iff]
        intro r hr hbe
        have hrk : normKey r.gmc = k := by simpa using hbe
        have hmm : normKey a.gmc ∈ t.map (fun r => normKey r.gmc) := by
          rw [hk, ← hrk]
          exact List.mem_map_of_mem _ hr
        exact hnd.1 hmm
      rw [← h0]
      simp [List.filter_cons, hp, htail]
    · have hpf : (normKey a.gmc == k) = false := by
        revert hp
        cases normKey a.gmc == k <;> simp
      rw [List.find?_cons_of_neg t hp] at hf
      have := ih hnd.2 r0 hf
      simp [List.filter_cons, hpf, this]

theorem newRowsOf_keys (target : List String) (tbl : List CanonRow) (src : Source) :
    (newRowsOf target tbl src).map (fun row => row.key) =
      (src.rows.filter
        (fun r => !((tbl.map (fun row => row.key)).contains (normKey r.gmc)))).map
        (fun r => normKey r.gmc) := by
  unfold newRowsOf
  rw [List.map_map]
  rfl

theorem newRowsOf_keys_nodup (target : List String) (tbl : List CanonRow)
    (src : Source) (hsrc : (src.rows.map (fun r => normKey r.gmc)).Nodup) :
    ((newRowsOf target tbl src).map (fun row => row.key)).Nodup := by
  rw [newRowsOf_keys]
  exact List.Nodup.sublist (List.Sublist.map _ (List.filter_sublist _)) hsrc

theorem newRowsOf_keys_disjoint (target : List String) (tbl : List CanonRow)
    (src : Source) :
    ∀ k, k ∈ (newRowsOf target tbl src).map (fun row => row.key) →
      k ∉ tbl.map (fun r => r.key) := by
  intro k hk hmem
  rw [newRowsOf_keys] at hk
  obtain ⟨r, hr, hkey⟩ := List.mem_map.mp hk
  have hpred := List.of_mem_filter hr
  have hc : (tbl.map (fun row => row.key)).contains (normKey r.gmc) = true :=
    (contains_true _ _).mpr (hkey ▸ hmem)
  rw [hc] at hpred
  cases hpred

theorem insertSource_ok (target : List String) (tbl : List CanonRow) (src : Source)
    (hnd : (tbl.map (fun r => r.key)).Nodup)
    (hsrc : (src.rows.map (fun r => normKey r.gmc)).Nodup) :
    insertSource target tbl src = .ok (tbl ++ newRowsOf target tbl src) := by
  unfold insertSource
  rw [if_pos]
  rw [List.nodup_append]
  exact ⟨hnd, newRowsOf_keys_nodup target tbl src hsrc,
    fun a ha hb => newRowsOf_keys_disjoint target tbl src a hb ha⟩

theorem mergeFrom_spec (target : List String) :
    ∀ ss : List Source, ∀ tbl : List CanonRow,
      (tbl.map (fun r => r.key)).Nodup →
      (∀ s ∈ ss, (s.rows.map (fun r => normKey r.gmc)).Nodup) →
      ∃ t2, mergeFrom target tbl ss = .ok t2 ∧
        (∀ k, k ∈ tbl.map (fun r => r.key) →
          t2.filter (fun row => row.key == k) =
            tbl.filter (fun row => row.key == k)) ∧
        (∀ k, k ∉ tbl.map (fun r => r.key) →
          (∀ s r, firstContaining? ss k = some (s, r) →
            t2.filter (fun row => row.key == k) = [buildRow target s r]) ∧
          (firstContaining? ss k = none →
            t2.filter (fun row => row.key == k) = [])) := by
  intro ss
  induction ss with
  | nil =>
    intro tbl hnd _
    refine ⟨tbl, rfl, fun k _ => rfl,
      fun k hk => ⟨fun s r hf => ?_, fun _ => filter_byKey_nil tbl k hk⟩⟩
    cases hf
  | cons s ss ih =>
    intro tbl hnd hall
    have hsrc : (s.rows.map (fun r => normKey r.gmc)).Nodup := hall s (by simp)
    have hall2 : ∀ s2 ∈ ss, (s2.rows.map (fun r => normKey r.gmc)).Nodup :=
      fun s2 hs2 => hall s2 (by simp [hs2])
    have hins := insertSource_ok target tbl s hnd hsrc
    have hnd2 : ((tbl ++ newRowsOf target tbl s).map (fun r => r.key)).Nodup := by
      rw [List.map_append, List.nodup_append]
      exact ⟨hnd, newRowsOf_keys_nodup target tbl s hsrc,
        fun a ha hb => newRowsOf_keys_disjoint target tbl s a hb ha⟩
    obtain ⟨t2, heq, hpres, habs⟩ := ih (tbl ++ newRowsOf target tbl s) hnd2 hall2
    refine ⟨t2, ?_, ?_, ?_⟩
    · show mergeFrom target tbl (s :: ss) = .ok t2
      simp only [mergeFrom, hins]
      exact heq
    · intro k hk
      have hk2 : k ∈ (tbl ++ newRowsOf target tbl s).map (fun r => r.key) := by
        rw [List.map_append, List.mem_append]
        exact Or.inl hk
      rw [hpres k hk2, List.filter_append]
      have hnew : (newRowsOf target tbl s).filter (fun row => row.key == k) = [] := by
        apply filter_byKey_nil
        intro hmem
        exact newRowsOf_keys_disjoint target tbl s k hmem hk
      rw [hnew, List.append_nil]
    · intro k hk
      cases hfind : s.rows.find? (fun r => normKey r.gmc == k) with
      | some r0 =>
        have hk0 : normKey r0.gmc = k := by simpa using List.find?_some hfind
        have hr0mem : r0 ∈ s.rows := List.mem_of_find?_eq_some hfind
        have hcf0 : (tbl.map (fun row => row.key)).contains (normKey r0.gmc) = false := by
          cases hcc : (tbl.map (fun row => row.key)).contains (normKey r0.gmc)
          · rfl
          · exact absurd (hk0 ▸ (contains_true _ _).mp hcc) hk
        have hkmem : k ∈ (newRowsOf target tbl s).map (fun r => r.key) := by
          rw [newRowsOf_keys, ← hk0]
          refine List.mem_map_of_mem _ (List.mem_filter.mpr ⟨hr0mem, ?_⟩)
          rw [hcf0]
          rfl
        have hk2 : k ∈ (tbl ++ newRowsOf target tbl s).map (fun r => r.key) := by
          rw [List.map_append, List.mem_append]
          exact Or.inr hkmem
        have hcong : (s.rows.filter
            (fun a => ((buildRow target s a).key == k) &&
              !((tbl.map (fun row => row.key)).contains (normKey a.gmc)))) =
            s.rows.filter (fun r => normKey r.gmc == k) := by
          apply List.filter_congr
          intro r _
          show ((normKey r.gmc == k) &&
            !((tbl.map (fun row => row.key)).contains (normKey r.gmc))) =
            (normKey r.gmc == k)
          by_cases hb : (normKey r.gmc == k) = true
          · have hkr : normKey r.gmc = k := by simpa using hb
            have hcf : (tbl.map (fun row => row.key)).contains (normKey r.gmc) = false := by
              cases hcc : (tbl.map (fun row => row.key)).contains (normKey r.gmc)
              · rfl
              · exact absurd (hkr ▸ (contains_true _ _).mp hcc) hk
            rw [hb, hcf]
            rfl
          · have hbf : (normKey r.gmc == k) = false := by
              revert hb
              cases normKey r.gmc == k <;> simp
            rw [hbf]
            rfl
        have hnewfilter : (newRowsOf target tbl s).filter
            (fun row => row.key == k) = [buildRow target s r0] := by
          unfold newRowsOf
          rw [List.filter_map, List.filter_filter]
          rw [show (List.filter
              (fun a => ((fun row => row.key == k) ∘ buildRow target s) a &&
                !((tbl.map (fun row => row.key)).contains (normKey a.gmc))) s.rows) =
              s.rows.filter (fun r => normKey r.gmc == k) from hcong]
          rw [find_filter_unique k s.rows hsrc r0 hfind]
          rfl
        have hfin : t2.filter (fun row => row.key == k) = [buildRow target s r0] := by
          rw [hpres k hk2, List.filter_append, filter_byKey_nil tbl k hk, hnewfilter]
          rfl
        constructor
        · intro s2 r2 hf
          simp only [firstContaining?, hfind] at hf
          rw [Option.some.injEq, Prod.mk.injEq] at hf
          rw [← hf.1, ← hf.2]
          exact hfin
        · intro hf
          simp only [firstContaining?, hfind] at hf
          cases hf
      | none =>
        have hknot : k ∉ (newRowsOf target tbl s).map (fun r => r.key) := by
          rw [newRowsOf_keys]
          intro hmem
          obtain ⟨r, hr, hkey⟩ := List.mem_map.mp hmem
          have hrmem : r ∈ s.rows := List.mem_of_mem_filter hr
          have hnone := List.find?_eq_none.mp hfind r hrmem
          exact hnone (by simp [hkey])
        have hk2 : k ∉ (tbl ++ newRowsOf target tbl s).map (fun r => r.key) := by
          rw [List.map_append, List.mem_append]
          rintro (h | h)
          · exact hk h
          · exact hknot h
        have hres := habs k hk2
        constructor
        · intro s2 r2 hf
          simp only [firstContaining?, hfind] at hf
          exact hres.1 s2 r2 hf
        · intro hf
          simp only [firstContaining?, hfind] at hf
          exact hres.2 hf

/-- C1 (amended). Provided the rows of each source have pairwise distinct
normalized keys, the merge succeeds and the canonical table holds, for
every normalized key present in some source, exactly one row — the row
built (provenance columns included) from the highest-priority source
containing that key and the row that source holds for it — and no row for keys
absent from every source; lower-priority sources never overwrite, they
only add keys absent so far.  When one source holds two rows sharing a
normalized key the primary key aborts the merge instead (see the
counterexample). -/
theorem reconcile_dedup_priority (target : List String) (sources : List Source)
    (hsrc : ∀ s ∈ sources, (s.rows.map (fun r => normKey r.gmc)).Nodup) :
    ∃ tbl, mergeAll target sources = .ok tbl ∧
      (∀ k s r, firstContaining? sources k = some (s, r) →
        tbl.filter (fun row => row.key == k) = [buildRow target s r]) ∧
      (∀ k, firstContaining? sources k = none →
        tbl.filter (fun row => row.key == k) = []) := by
  obtain ⟨t2, heq, _, habs⟩ := mergeFrom_spec target sources [] (by simp) hsrc
  exact ⟨t2, heq, fun k s r hf => (habs k (by simp)).1 s r hf,
    fun k hf => (habs k (by simp)).2 hf⟩

/-- Source A of the reconciliation scenario: key 1 with a Name cell. -/
def srcA : Source :=
  { source_db := "missed_gmc.sqlite", table := "tA",
    cols := ["GMC_Number", "Name"],
    rows := [{ gmc := "1", cells := [("Name", "Alice")] }] }

/-- Source B: the same key 1 with Name and Gender cells, plus key 2. -/
def srcB : Source :=
  { source_db := "sp_doctors.sqlite", table := "tB",
    cols := ["GMC_Number", "Name", "Gender"],
    rows := [{ gmc := "1", cells := [("Name", "Alice"), ("Gender", "F")] },
             { gmc := "2", cells := [("Name", "Bob"), ("Gender", "M")] }] }

/-- Witness for C1 at the concrete priority order A then B. -/
theorem reconcile_dedup_priority_witness :
    ∃ tbl, mergeAll (union_columns [srcA.cols, srcB.cols]) [srcA, srcB] = .ok tbl ∧
      (∀ k s r, firstContaining? [srcA, srcB] k = some (s, r) →
        tbl.filter (fun row => row.key == k) =
          [buildRow (union_columns [srcA.cols, srcB.cols]) s r]) ∧
      (∀ k, firstContaining? [srcA, srcB] k = none →
        tbl.filter (fun row => row.key == k) = []) :=
  reconcile_dedup_priority (union_columns [srcA.cols, srcB.cols]) [srcA, srcB]
    (by decide)

/-- A source holding two rows whose keys normalize identically. -/
def srcDup : Source :=
  { source_db := "missed_gmc.sqlite", table := "t",
    cols := ["GMC_Number"],
    rows := [{ gmc := "12", cells := [] }, { gmc := " 12 ", cells := [] }] }

/-- Counterexample to C1 as stated.  Two input rows of one source share
the normalized key 12; the INSERT ... SELECT then violates the primary
key and the whole merge aborts with an error, so no canonical table
with exactly one row for that key is produced. -/
theorem reconcile_dedup_priority_cex :
    normKey " 12 " = normKey "12" ∧
    mergeAll ["GMC_Number"] [srcDup] =
      .error "UNIQUE constraint failed: combined_gmc_full.GMC_Number" :=
  ⟨by decide, by rfl⟩

end Gmc
